import Mathlib

set_option maxRecDepth 100000

/-!
Verification of the scrubby data pipeline, embedded from src/scrubby/model.py.

The file shallowly embeds the pure computational core of the module:
the sequence encoder (normalize_sequence), filename label extraction
(get_label_from_filename), alignment index construction
(load_alignment_info), FASTQ dataset loading (load_sequences) and its
aggregation in train_nn, the train/test/validation split
(train_test_val_split), and the per-class count and percentage reporting
of predict_nn.  Machine floating point values are modelled as rationals;
the values that occur (small integers, counts, percentages) are exact in
both representations.  File input is modelled by passing the parsed
records or lines as explicit arguments; the random shuffle is modelled
by quantifying over an arbitrary permutation.
-/

namespace Scrubby

/-- Length of the DNA sequence window, INPUT_SIZE in model.py. -/
def INPUT_SIZE : Nat := 150

/-- Number of target classes, NUM_CLASSES in model.py. -/
def NUM_CLASSES : Nat := 5

/-- Number of chromosomes used by the one-hot auxiliary encoding, NUM_CHROMOSOMES in model.py. -/
def NUM_CHROMOSOMES : Nat := 25

/-- ASCII whitespace recognised by the Python str.strip method. -/
def isPySpace (c : Char) : Bool :=
  c = ' ' || c = '\t' || c = '\n' || c = '\r' || c = Char.ofNat 11 || c = Char.ofNat 12

/-- Strip whitespace from both ends of a character list, as Python str.strip does. -/
def pyStripChars (cs : List Char) : List Char :=
  ((cs.dropWhile isPySpace).reverse.dropWhile isPySpace).reverse

/-- Model of Python str.strip with no argument. -/
def pyStrip (s : String) : String := String.mk (pyStripChars s.data)

/-- Digit run accepted by the Python int constructor after the first digit:
further digits, with single underscores allowed between digits. -/
def pyDigitsGo : Nat → List Char → Option Nat
  | acc, [] => some acc
  | acc, '_' :: c :: rest =>
      if c.isDigit then pyDigitsGo (acc * 10 + (c.toNat - 48)) rest else none
  | _, ['_'] => none
  | acc, c :: rest =>
      if c.isDigit then pyDigitsGo (acc * 10 + (c.toNat - 48)) rest else none

/-- Nonempty digit run accepted by the Python int constructor. -/
def pyDigits : List Char → Option Nat
  | [] => none
  | c :: rest => if c.isDigit then pyDigitsGo (c.toNat - 48) rest else none

/-- Model of the Python int constructor on strings: optional surrounding
whitespace, an optional sign, then decimal digits; none models ValueError. -/
def pyParseInt (s : String) : Option Int :=
  match pyStripChars s.data with
  | '+' :: rest => (pyDigits rest).map (fun n => (n : Int))
  | '-' :: rest => (pyDigits rest).map (fun n => -(n : Int))
  | cs => (pyDigits cs).map (fun n => (n : Int))

/-- Model of the Python int constructor as an Except value, the error being ValueError. -/
def pyToInt (s : String) : Except String Int :=
  match pyParseInt s with
  | some n => .ok n
  | none => .error "invalid literal for int with base 10"

/-- Model of os.path.basename on a POSIX path: the part after the last slash. -/
def pyBasename (cs : List Char) : List Char :=
  (cs.reverse.takeWhile (fun c => c ≠ '/')).reverse

/-- Model of os.path.splitext on a name without path separators: split at the
last dot provided some earlier character of the name is not a dot. -/
def splitextP (cs : List Char) : List Char × List Char :=
  match cs.reverse.findIdx? (fun c => c = '.') with
  | none => (cs, [])
  | some ridx =>
      let dotIndex := cs.length - 1 - ridx
      if (cs.take dotIndex).any (fun c => c ≠ '.') then
        (cs.take dotIndex, cs.drop dotIndex)
      else (cs, [])

/-- The filename with its two trailing extensions stripped, as computed by the
double os.path.splitext call in get_label_from_filename. -/
def strippedBase (file_path : String) : List Char :=
  (splitextP (splitextP (pyBasename file_path.data)).1).1

/-- Whether a character list starts with two underscores. -/
def startsUU : List Char → Bool
  | '_' :: '_' :: _ => true
  | _ => false

/-- Model of Python str.rfind applied to the two-underscore separator: the
greatest index at which the separator starts, none modelling the -1 result. -/
def rfindUU (cs : List Char) : Option Nat :=
  ((List.range cs.length).filter (fun i => startsUU (cs.drop i))).getLast?

/-- Embedding of get_label_from_filename from model.py: strip two extensions
from the basename, locate the last two-underscore separator, and parse the
integer suffix; a missing separator is a ValueError. -/
def get_label_from_filename (file_path : String) : Except String Int :=
  let filename := strippedBase file_path
  match rfindUU filename with
  | some label_pos => pyToInt (String.mk (filename.drop (label_pos + 2)))
  | none => .error "Invalid filename format for extracting label"

/-- Model of the Python dict.get method with a default, on an association list. -/
def pyDictGet {κ α : Type} [BEq κ] (m : List (κ × α)) (k : κ) (dflt : α) : α :=
  match m.find? (fun e => e.1 == k) with
  | some e => e.2
  | none => dflt

/-- The nucleotide value table of normalize_sequence in model.py. -/
def nucleotideValue (c : Char) : ℚ :=
  pyDictGet [('A', 1), ('C', 2), ('G', 3), ('T', 4)] c 0

/-- Embedding of normalize_sequence from model.py: map each character of the
input string through the nucleotide value table, defaulting to zero. -/
def normalize_sequence (seq : String) : List ℚ :=
  seq.data.map nucleotideValue

/-- Python dict assignment on an association list: replace the value at the
first occurrence of the key, or append a new entry. -/
def dictInsert {α : Type} : List (String × α) → String → α → List (String × α)
  | [], k, v => [(k, v)]
  | e :: rest, k, v => if e.1 == k then (k, v) :: rest else e :: dictInsert rest k v

/-- Python dict lookup on an association list. -/
def dictLookup {α : Type} (m : List (String × α)) (k : String) : Option α :=
  (m.find? (fun e => e.1 == k)).map (fun e => e.2)

/-- The alignment index: a mapping from read identifier to chromosome, start and end. -/
abbrev AlignInfo := List (String × (Int × Int × Int))

/-- Splitting a character list on a separator character, keeping empty fields,
as the Python str.split method does with an explicit separator. -/
def splitOnChar (sep : Char) : List Char → List (List Char)
  | [] => [[]]
  | c :: rest =>
      match splitOnChar sep rest with
      | [] => [[c]]
      | p :: ps => if c = sep then [] :: p :: ps else (c :: p) :: ps

/-- The comma-separated fields of a stripped line, as computed by the
line.strip().split call in load_alignment_info. -/
def pySplit (line : String) : List String :=
  (splitOnChar ',' (pyStripChars line.data)).map String.mk

/-- Python list indexing as an Except value, the error being IndexError. -/
def pyIndex {α : Type} (l : List α) (i : Nat) : Except String α :=
  match l.get? i with
  | some a => .ok a
  | none => .error "list index out of range"

/-- One line of the loop body of load_alignment_info in model.py: strip the
line, split on commas, read the identifier and the three integer fields. -/
def parseAlignLine (line : String) : Except String (String × Int × Int × Int) :=
  let parts := pySplit line
  match pyIndex parts 0 with
  | .error e => .error e
  | .ok read_id =>
    match pyIndex parts 1 with
    | .error e => .error e
    | .ok f1 =>
      match pyToInt f1 with
      | .error e => .error e
      | .ok chromosome =>
        match pyIndex parts 2 with
        | .error e => .error e
        | .ok f2 =>
          match pyToInt f2 with
          | .error e => .error e
          | .ok start =>
            match pyIndex parts 3 with
            | .error e => .error e
            | .ok f3 =>
              match pyToInt f3 with
              | .error e => .error e
              | .ok endv => .ok (read_id, chromosome, start, endv)

/-- The line loop of load_alignment_info in model.py, threading the dict. -/
def alignLoop : AlignInfo → List String → Except String AlignInfo
  | m, [] => .ok m
  | m, line :: rest =>
      match parseAlignLine line with
      | .ok e => alignLoop (dictInsert m e.1 e.2) rest
      | .error msg => .error msg

/-- Embedding of load_alignment_info from model.py, the file given as its list
of lines: parse each line and assign the triple to the read identifier. -/
def load_alignment_info (lines : List String) : Except String AlignInfo :=
  alignLoop [] lines

/-- Parse every line of an alignment file, failing if any line fails. -/
def parseLines : List String → Except String (List (String × Int × Int × Int))
  | [] => .ok []
  | l :: ls =>
      match parseAlignLine l with
      | .error e => .error e
      | .ok entry =>
          match parseLines ls with
          | .error e => .error e
          | .ok rest => .ok (entry :: rest)

/-- A malformed alignment line: fewer than four comma-separated fields, or a
chromosome, start or end field the Python int constructor rejects. -/
def badLine (line : String) : Bool :=
  let parts := pySplit line
  decide (parts.length < 4) || (pyParseInt (parts.getD 1 "")).isNone
    || (pyParseInt (parts.getD 2 "")).isNone || (pyParseInt (parts.getD 3 "")).isNone

/-- One FASTQ record as consumed by load_sequences: its identifier and sequence. -/
structure FastqRecord where
  id : String
  seq : String
deriving DecidableEq, Inhabited

/-- The mutable state of the record loop in load_sequences. -/
structure LoadState where
  seqs : List (List ℚ)
  labels : List Int
  aux_inputs : List (List ℚ)
  excluded : Nat
  total : Nat
deriving DecidableEq, Inhabited

/-- The value of one load_sequences call: retained sequence tensors, labels,
the optional auxiliary vectors, and the excluded and total counters that the
function reports. -/
structure LoadResult where
  seqs : List (List ℚ)
  labels : List Int
  aux_inputs : Option (List (List ℚ))
  excluded : Nat
  total : Nat
deriving DecidableEq, Inhabited

/-- Model of tf.tensor_scatter_nd_update writing 1.0 into a zero vector of the
given length: a one-hot vector, with an out-of-range index a runtime error. -/
def oneHotChrom (num_chromosomes : Nat) (chromosome : Int) : Except String (List ℚ) :=
  if 0 ≤ chromosome ∧ chromosome < (num_chromosomes : Int) then
    .ok ((List.range num_chromosomes).map
      (fun i : Nat => if (i : Int) = chromosome then (1 : ℚ) else 0))
  else .error "scatter index out of range"

/-- The auxiliary feature vector built in load_sequences: the one-hot
chromosome vector concatenated with the raw start and end values. -/
def auxVector (num_chromosomes : Nat) (c s e : Int) : Except String (List ℚ) :=
  match oneHotChrom num_chromosomes c with
  | .ok chrom => .ok (chrom ++ [(s : ℚ), (e : ℚ)])
  | .error msg => .error msg

/-- Python truthiness of the optional alignment dict: present and nonempty. -/
def pyTruthy (ai : Option AlignInfo) : Bool :=
  match ai with
  | none => false
  | some m => !m.isEmpty

/-- The auxiliary block of the record loop of load_sequences in model.py: when
the alignment dict is supplied and truthy and holds the record identifier,
build the auxiliary vector and append it to the collected auxiliary inputs;
otherwise leave them unchanged. -/
def auxUpdate (alignment_info : Option AlignInfo) (num_chromosomes : Nat)
    (st : LoadState) (record : FastqRecord) : Except String (List (List ℚ)) :=
  if pyTruthy alignment_info then
    match dictLookup (alignment_info.getD []) record.id with
    | some cse =>
        match auxVector num_chromosomes cse.1 cse.2.1 cse.2.2 with
        | .ok aux => .ok (st.aux_inputs ++ [aux])
        | .error e => .error e
    | none => .ok st.aux_inputs
  else .ok st.aux_inputs

/-- The body of the record loop of load_sequences in model.py: count the
record, exclude it when shorter than INPUT_SIZE, otherwise truncate it,
optionally attach an auxiliary vector, and append sequence and label. -/
def loadStep (alignment_info : Option AlignInfo) (num_chromosomes : Nat) (seq_label : Int)
    (st : LoadState) (record : FastqRecord) : Except String LoadState :=
  let seq := normalize_sequence record.seq
  if seq.length < INPUT_SIZE then
    .ok { st with excluded := st.excluded + 1, total := st.total + 1 }
  else
    let seq_tensor := seq.take INPUT_SIZE
    match auxUpdate alignment_info num_chromosomes st record with
    | .ok aux_inputs =>
        .ok { seqs := st.seqs ++ [seq_tensor], labels := st.labels ++ [seq_label],
              aux_inputs := aux_inputs, excluded := st.excluded, total := st.total + 1 }
    | .error e => .error e

/-- The record loop of load_sequences in model.py. -/
def loadLoop (alignment_info : Option AlignInfo) (num_chromosomes : Nat) (seq_label : Int) :
    LoadState → List FastqRecord → Except String LoadState
  | st, [] => .ok st
  | st, r :: rs =>
      match loadStep alignment_info num_chromosomes seq_label st r with
      | .ok st1 => loadLoop alignment_info num_chromosomes seq_label st1 rs
      | .error e => .error e

/-- Embedding of load_sequences from model.py, the FASTQ file given as its
parsed records: derive the label from the file path, run the record loop, and
return None for the auxiliary component when no vector was collected. -/
def load_sequences (file_path : String) (records : List FastqRecord)
    (alignment_info : Option AlignInfo) (num_chromosomes : Nat := NUM_CHROMOSOMES) :
    Except String LoadResult :=
  match get_label_from_filename file_path with
  | .error e => .error e
  | .ok seq_label =>
      match loadLoop alignment_info num_chromosomes seq_label ⟨[], [], [], 0, 0⟩ records with
      | .error e => .error e
      | .ok final =>
          if final.aux_inputs.isEmpty then
            .ok ⟨final.seqs, final.labels, none, final.excluded, final.total⟩
          else
            .ok ⟨final.seqs, final.labels, some final.aux_inputs, final.excluded, final.total⟩

/-- A record load_sequences excludes: its encoded sequence is shorter than INPUT_SIZE. -/
def isShort (rec : FastqRecord) : Bool :=
  decide ((normalize_sequence rec.seq).length < INPUT_SIZE)

/-- A record that contributes an auxiliary vector: retained, with the
alignment dict supplied, truthy, and containing the record identifier. -/
def isMatched (ai : Option AlignInfo) (rec : FastqRecord) : Bool :=
  !(isShort rec) && (pyTruthy ai && (dictLookup (ai.getD []) rec.id).isSome)

/-- The concatenated dataset train_nn builds before splitting. -/
structure TrainData where
  all_sequences : List (List ℚ)
  all_labels : List Int
  all_aux_inputs : Option (List (List ℚ))
  has_aux_inputs : Bool
deriving DecidableEq, Inhabited

/-- Whether the first character list is an initial segment of the second. -/
def chrLeads : List Char → List Char → Bool
  | [], _ => true
  | _ :: _, [] => false
  | a :: as, b :: bs => a = b && chrLeads as bs

/-- Model of the Python in operator on two strings: substring containment. -/
def chrContains (needle : List Char) : List Char → Bool
  | [] => chrLeads needle []
  | c :: rest => chrLeads needle (c :: rest) || chrContains needle rest

/-- Python truthiness of the raw alignment_data value train_nn forwards: None
is falsy, a path string is truthy exactly when nonempty. -/
def pyTruthyStr (s : Option String) : Bool :=
  match s with
  | none => false
  | some s2 => !s2.data.isEmpty

/-- The auxiliary block of load_sequences as it executes in a training run.
train_nn at model.py line 174 passes its raw alignment_data argument, the
unparsed path string, to load_sequences without calling load_alignment_info,
so inside the loop the membership test read_id in alignment_info is a
substring test of the read identifier against the path string, and on a hit
the tuple assignment from alignment_info indexed by the read identifier
raises a TypeError, because a string cannot be indexed by a string. -/
def auxUpdatePath (alignment_data : Option String) (st : LoadState)
    (record : FastqRecord) : Except String (List (List ℚ)) :=
  if pyTruthyStr alignment_data then
    if chrContains record.id.data (alignment_data.getD "").data then
      .error "TypeError: string indices must be integers"
    else .ok st.aux_inputs
  else .ok st.aux_inputs

/-- The body of the record loop of load_sequences as it executes in a
training run, where alignment_info is bound to the raw path string. -/
def loadStepPath (alignment_data : Option String) (seq_label : Int)
    (st : LoadState) (record : FastqRecord) : Except String LoadState :=
  let seq := normalize_sequence record.seq
  if seq.length < INPUT_SIZE then
    .ok { st with excluded := st.excluded + 1, total := st.total + 1 }
  else
    let seq_tensor := seq.take INPUT_SIZE
    match auxUpdatePath alignment_data st record with
    | .ok aux_inputs =>
        .ok { seqs := st.seqs ++ [seq_tensor], labels := st.labels ++ [seq_label],
              aux_inputs := aux_inputs, excluded := st.excluded, total := st.total + 1 }
    | .error e => .error e

/-- The record loop of load_sequences as it executes in a training run. -/
def loadLoopPath (alignment_data : Option String) (seq_label : Int) :
    LoadState → List FastqRecord → Except String LoadState
  | st, [] => .ok st
  | st, r :: rs =>
      match loadStepPath alignment_data seq_label st r with
      | .ok st1 => loadLoopPath alignment_data seq_label st1 rs
      | .error e => .error e

/-- load_sequences as called from train_nn in model.py: the alignment_info
parameter is bound to the raw alignment_data path string, never a parsed
index. The num_chromosomes parameter of the source is never consulted on
this path because no auxiliary vector is ever built. -/
def load_sequences_path (file_path : String) (records : List FastqRecord)
    (alignment_data : Option String) : Except String LoadResult :=
  match get_label_from_filename file_path with
  | .error e => .error e
  | .ok seq_label =>
      match loadLoopPath alignment_data seq_label ⟨[], [], [], 0, 0⟩ records with
      | .error e => .error e
      | .ok final =>
          if final.aux_inputs.isEmpty then
            .ok ⟨final.seqs, final.labels, none, final.excluded, final.total⟩
          else
            .ok ⟨final.seqs, final.labels, some final.aux_inputs, final.excluded, final.total⟩

/-- The per-file loading loop of train_nn in model.py: each file is loaded by
handing load_sequences the raw alignment_data path string. -/
def loadAll (alignment_data : Option String) :
    List (String × List FastqRecord) → Except String (List LoadResult)
  | [] => .ok []
  | f :: fs =>
      match load_sequences_path f.1 f.2 alignment_data with
      | .ok r =>
          match loadAll alignment_data fs with
          | .ok rs => .ok (r :: rs)
          | .error e => .error e
      | .error e => .error e

/-- Embedding of the data loading and concatenation prefix of train_nn in
model.py, its alignment_data argument being the raw path string from the
command line: load every file, record whether any file produced auxiliary
vectors, and concatenate the per-file arrays. -/
def train_nn_load (files : List (String × List FastqRecord))
    (alignment_data : Option String) : Except String TrainData :=
  match loadAll alignment_data files with
  | .error e => .error e
  | .ok results =>
      let has_aux := results.any (fun r => r.aux_inputs.isSome)
      .ok { all_sequences := (results.map (fun r => r.seqs)).flatten,
            all_labels := (results.map (fun r => r.labels)).flatten,
            all_aux_inputs :=
              if has_aux then some ((results.map (fun r => r.aux_inputs.getD [])).flatten)
              else none,
            has_aux_inputs := has_aux }

/-- The auxiliary input width train_nn configures the model with. -/
def aux_input_size (t : TrainData) : Option Nat :=
  if t.has_aux_inputs then some (NUM_CHROMOSOMES + 2) else none

/-- Model of the Python int constructor on a rational float value: truncation
toward zero. -/
def pyInt (q : ℚ) : Int :=
  if q < 0 then -⌊-q⌋ else ⌊q⌋

/-- Embedding of train_test_val_split from model.py: shuffle the index range,
cut at floor of data_len times each ratio, and slice. The shuffle is passed in
as a function; theorems quantify over permutations. -/
def train_test_val_split (shuffle : List Nat → List Nat) (data_len : Nat)
    (train_ratio test_ratio : ℚ) : List Nat × List Nat × List Nat :=
  let indices := shuffle (List.range data_len)
  let train_end := (pyInt ((data_len : ℚ) * train_ratio)).toNat
  let test_end := train_end + (pyInt ((data_len : ℚ) * test_ratio)).toNat
  (indices.take train_end, (indices.drop train_end).take (test_end - train_end),
    indices.drop test_end)

/-- Inner loop of the tf.argmax model: track the best index and value so far,
a strictly larger value replacing the current best, so ties keep the first. -/
def argmaxGo (best : Nat × ℚ) (i : Nat) : List ℚ → Nat
  | [] => best.1
  | x :: rest => if best.2 < x then argmaxGo (i, x) (i + 1) rest else argmaxGo best (i + 1) rest

/-- Model of tf.argmax over one row of logits: the index of the first maximum. -/
def tfArgmax : List ℚ → Nat
  | [] => 0
  | x :: rest => argmaxGo (0, x) 1 rest

/-- Model of np.bincount with a minlength argument. -/
def bincount (xs : List Nat) (minlength : Nat) : List Nat :=
  let len := max minlength (xs.foldr (fun x a => max (x + 1) a) 0)
  (List.range len).map (fun c => xs.count c)

/-- Embedding of the per-file reporting tail of predict_nn in model.py: argmax
each row of logits, count occurrences per class with np.bincount, and convert
each count to a percentage of the total number of predictions. -/
def predict_nn_counts (logits : List (List ℚ)) : List Nat × List ℚ :=
  let predicted_classes := logits.map tfArgmax
  let class_counts := bincount predicted_classes NUM_CLASSES
  let total_predictions := predicted_classes.length
  let class_distribution :=
    class_counts.map (fun c : Nat => (c : ℚ) / (total_predictions : ℚ) * 100)
  (class_counts, class_distribution)

/-- Extract the payload of a successful Except value. -/
def getOk {α : Type} [Inhabited α] : Except String α → α
  | .ok a => a
  | .error _ => default

/-- C8: the Sequence Encoder is a total pure function on arbitrary strings: it
returns a numeric vector of the same length as the input, mapping each symbol
position-wise with A to 1.0, C to 2.0, G to 3.0, T to 4.0 and every other
symbol to 0.0, and it never fails. -/
theorem C8_sequence_encoder_total (s : String) :
    (normalize_sequence s).length = s.data.length ∧
    ∀ i, i < s.data.length →
      (normalize_sequence s).getD i 0 =
        (if s.data.getD i ' ' = 'A' then 1
         else if s.data.getD i ' ' = 'C' then 2
         else if s.data.getD i ' ' = 'G' then 3
         else if s.data.getD i ' ' = 'T' then 4 else (0 : ℚ)) := by
  constructor
  · simp [normalize_sequence]
  · intro i hi
    have hc : s.data.get? i = some (s.data.get ⟨i, hi⟩) := List.get?_eq_get hi
    simp only [normalize_sequence, List.getD, List.get?_map, hc, Option.map_some,
      Option.getD_some]
    set c := s.data.get ⟨i, hi⟩ with hcdef
    by_cases hA : c = 'A'
    · simp [nucleotideValue, pyDictGet, hA]
    · by_cases hC : c = 'C'
      · simp [nucleotideValue, pyDictGet, hC]
      · by_cases hG : c = 'G'
        · simp [nucleotideValue, pyDictGet, hG]
        · by_cases hT : c = 'T'
          · simp [nucleotideValue, pyDictGet, hT]
          · have hA2 : ('A' == c) = false := beq_eq_false_iff_ne.mpr (fun h => hA h.symm)
            have hC2 : ('C' == c) = false := beq_eq_false_iff_ne.mpr (fun h => hC h.symm)
            have hG2 : ('G' == c) = false := beq_eq_false_iff_ne.mpr (fun h => hG h.symm)
            have hT2 : ('T' == c) = false := beq_eq_false_iff_ne.mpr (fun h => hT h.symm)
            simp [nucleotideValue, pyDictGet, List.find?, hA, hC, hG, hT, hA2, hC2, hG2, hT2]

/-- Witness for C8 at a concrete string and position: the unknown symbol X at
position 1 of AXGT encodes to 0. -/
theorem C8_sequence_encoder_total_witness :
    (normalize_sequence "AXGT").getD 1 0 = 0 := by
  have h := (C8_sequence_encoder_total "AXGT").2 1 (by decide)
  rw [h]; decide

/-- C9: the Sequence Encoder is case-sensitive: each lowercase nucleotide
character encodes to 0.0, the unknown-symbol value, not to the value of its
uppercase counterpart. -/
theorem C9_encoder_case_sensitive :
    normalize_sequence "acgt" = [0, 0, 0, 0] ∧
    normalize_sequence "ACGT" = [1, 2, 3, 4] := by
  decide

/-- Slicing a list at two successive cut points and concatenating the pieces
returns the list. -/
theorem slice_concat {α : Type} (l : List α) (a k : Nat) :
    l.take a ++ ((l.drop a).take k ++ l.drop (a + k)) = l := by
  have h1 : l.drop (a + k) = (l.drop a).drop k := by
    rw [List.drop_drop, Nat.add_comm]
  rw [h1, List.take_append_drop, List.take_append_drop]

/-- Truncation toward zero agrees with the floor on nonnegative rationals. -/
theorem pyInt_nonneg {q : ℚ} (h : 0 ≤ q) : pyInt q = ⌊q⌋ := by
  simp [pyInt, not_lt.mpr h]

/-- The three slices produced by train_test_val_split concatenate back to the
shuffled index list. -/
theorem tts_eq (shuffle : List Nat → List Nat) (N : Nat) (t s : ℚ) :
    train_test_val_split shuffle N t s =
      ((shuffle (List.range N)).take ((pyInt ((N : ℚ) * t)).toNat),
       ((shuffle (List.range N)).drop ((pyInt ((N : ℚ) * t)).toNat)).take
         ((pyInt ((N : ℚ) * s)).toNat),
       (shuffle (List.range N)).drop
         ((pyInt ((N : ℚ) * t)).toNat + (pyInt ((N : ℚ) * s)).toNat)) := by
  simp [train_test_val_split, Nat.add_sub_cancel_left]

/-- The concatenation of the three split parts is the shuffled index list. -/
theorem tts_concat (shuffle : List Nat → List Nat) (N : Nat) (t s : ℚ) :
    (train_test_val_split shuffle N t s).1 ++
      ((train_test_val_split shuffle N t s).2.1 ++ (train_test_val_split shuffle N t s).2.2) =
      shuffle (List.range N) := by
  rw [tts_eq]
  exact slice_concat _ _ _

/-- Three lists whose concatenation is a permutation of a duplicate-free list
are pairwise disjoint. -/
theorem threeway_disjoint {α : Type} (l1 l2 l3 R : List α) (hR : R.Nodup)
    (hperm : (l1 ++ (l2 ++ l3)).Perm R) :
    l1.Disjoint l2 ∧ l1.Disjoint l3 ∧ l2.Disjoint l3 := by
  have hnd : (l1 ++ (l2 ++ l3)).Nodup := hperm.nodup_iff.mpr hR
  rw [List.nodup_append] at hnd
  obtain ⟨h1, h23, h123⟩ := hnd
  rw [List.nodup_append] at h23
  rw [List.disjoint_append_right] at h123
  exact ⟨h123.1, h123.2, h23.2.2⟩

/-- C2: for every N and ratios in the unit interval summing to at most one,
train_test_val_split returns a train list of exactly floor of N times the
train ratio elements, a test list of exactly floor of N times the test ratio
elements, and three pairwise disjoint lists that together cover the index
range exactly once. -/
theorem C2_split_engine (shuffle : List Nat → List Nat) (N : Nat) (t s : ℚ)
    (hperm : (shuffle (List.range N)).Perm (List.range N))
    (ht0 : 0 ≤ t) (ht1 : t ≤ 1) (hs0 : 0 ≤ s) (hs1 : s ≤ 1) (hsum : t + s ≤ 1) :
    (train_test_val_split shuffle N t s).1.length = (⌊(N : ℚ) * t⌋).toNat ∧
    (train_test_val_split shuffle N t s).2.1.length = (⌊(N : ℚ) * s⌋).toNat ∧
    ((train_test_val_split shuffle N t s).1 ++
      ((train_test_val_split shuffle N t s).2.1 ++
        (train_test_val_split shuffle N t s).2.2)).Perm (List.range N) ∧
    (train_test_val_split shuffle N t s).1.Disjoint (train_test_val_split shuffle N t s).2.1 ∧
    (train_test_val_split shuffle N t s).1.Disjoint (train_test_val_split shuffle N t s).2.2 ∧
    (train_test_val_split shuffle N t s).2.1.Disjoint
      (train_test_val_split shuffle N t s).2.2 := by
  have hNt : (0 : ℚ) ≤ (N : ℚ) * t := mul_nonneg (Nat.cast_nonneg N) ht0
  have hNs : (0 : ℚ) ≤ (N : ℚ) * s := mul_nonneg (Nat.cast_nonneg N) hs0
  have hpt : pyInt ((N : ℚ) * t) = ⌊(N : ℚ) * t⌋ := pyInt_nonneg hNt
  have hps : pyInt ((N : ℚ) * s) = ⌊(N : ℚ) * s⌋ := pyInt_nonneg hNs
  have hf1 : 0 ≤ ⌊(N : ℚ) * t⌋ := Int.floor_nonneg.mpr hNt
  have hf2 : 0 ≤ ⌊(N : ℚ) * s⌋ := Int.floor_nonneg.mpr hNs
  have h1 : (N : ℚ) * t + (N : ℚ) * s ≤ ((N : Int) : ℚ) := by
    push_cast
    calc (N : ℚ) * t + (N : ℚ) * s = (N : ℚ) * (t + s) := by ring
      _ ≤ (N : ℚ) * 1 := mul_le_mul_of_nonneg_left hsum (Nat.cast_nonneg N)
      _ = (N : ℚ) := mul_one _
  have h2 : ⌊(N : ℚ) * t⌋ + ⌊(N : ℚ) * s⌋ ≤ ⌊(N : ℚ) * t + (N : ℚ) * s⌋ :=
    Int.le_floor.mpr (by push_cast; exact add_le_add (Int.floor_le _) (Int.floor_le _))
  have h3 : ⌊(N : ℚ) * t + (N : ℚ) * s⌋ ≤ (N : Int) := by
    calc ⌊(N : ℚ) * t + (N : ℚ) * s⌋ ≤ ⌊((N : Int) : ℚ)⌋ := Int.floor_le_floor h1
      _ = (N : Int) := Int.floor_intCast N
  have haed : (⌊(N : ℚ) * t⌋).toNat + (⌊(N : ℚ) * s⌋).toNat ≤ N := by omega
  have hlen : (shuffle (List.range N)).length = N := by
    simpa using hperm.length_eq
  have hperm2 : ((train_test_val_split shuffle N t s).1 ++
      ((train_test_val_split shuffle N t s).2.1 ++
        (train_test_val_split shuffle N t s).2.2)).Perm (List.range N) := by
    rw [tts_concat]; exact hperm
  have hdisj := threeway_disjoint _ _ _ _ (List.nodup_range _) hperm2
  refine ⟨?_, ?_, hperm2, hdisj.1, hdisj.2.1, hdisj.2.2⟩
  · rw [tts_eq]
    simp only [List.length_take, hlen, hpt]
    exact Nat.min_eq_left (by omega)
  · rw [tts_eq]
    simp only [List.length_take, List.length_drop, hlen, hpt, hps]
    exact Nat.min_eq_left (by omega)

/-- Witness for C2 at a concrete permutation and ratios: ten items split with
ratios 0.7 and 0.15 put exactly seven items into the train list. -/
theorem C2_split_engine_witness :
    (train_test_val_split id 10 (7 / 10) (3 / 20)).1.length = (⌊(10 : ℚ) * (7 / 10)⌋).toNat :=
  (C2_split_engine id 10 (7 / 10) (3 / 20) (List.Perm.refl _) (by norm_num) (by norm_num)
    (by norm_num) (by norm_num) (by norm_num)).1

/-- C10: the partition invariant of train_test_val_split holds for all
nonnegative ratios, even when their sum exceeds one: the three returned index
lists are pairwise disjoint and together cover the index range exactly once,
because the cut points are clamped by list slicing. -/
theorem C10_split_engine_clamped (shuffle : List Nat → List Nat) (N : Nat) (t s : ℚ)
    (hperm : (shuffle (List.range N)).Perm (List.range N))
    (ht0 : 0 ≤ t) (hs0 : 0 ≤ s) :
    ((train_test_val_split shuffle N t s).1 ++
      ((train_test_val_split shuffle N t s).2.1 ++
        (train_test_val_split shuffle N t s).2.2)).Perm (List.range N) ∧
    (train_test_val_split shuffle N t s).1.Disjoint (train_test_val_split shuffle N t s).2.1 ∧
    (train_test_val_split shuffle N t s).1.Disjoint (train_test_val_split shuffle N t s).2.2 ∧
    (train_test_val_split shuffle N t s).2.1.Disjoint
      (train_test_val_split shuffle N t s).2.2 := by
  have hperm2 : ((train_test_val_split shuffle N t s).1 ++
      ((train_test_val_split shuffle N t s).2.1 ++
        (train_test_val_split shuffle N t s).2.2)).Perm (List.range N) := by
    rw [tts_concat]; exact hperm
  exact ⟨hperm2, threeway_disjoint _ _ _ _ (List.nodup_range _) hperm2⟩

/-- Witness for C10 at ratios summing to more than one: with five items and
both ratios 0.8 the three parts still cover the index range exactly once. -/
theorem C10_split_engine_clamped_witness :
    ((train_test_val_split id 5 (4 / 5) (4 / 5)).1 ++
      ((train_test_val_split id 5 (4 / 5) (4 / 5)).2.1 ++
        (train_test_val_split id 5 (4 / 5) (4 / 5)).2.2)).Perm (List.range 5) :=
  (C10_split_engine_clamped id 5 (4 / 5) (4 / 5) (List.Perm.refl _) (by norm_num)
    (by norm_num)).1

/-- The index tracked by the argmax loop stays below the running position plus
the number of remaining elements. -/
theorem argmaxGo_lt : ∀ (l : List ℚ) (best : Nat × ℚ) (i : Nat),
    best.1 < i → argmaxGo best i l < i + l.length := by
  intro l
  induction l with
  | nil => intro best i h; simpa [argmaxGo] using h
  | cons x rest ih =>
      intro best i h
      simp only [argmaxGo]
      by_cases hx : best.2 < x
      · rw [if_pos hx]
        have h2 := ih (i, x) (i + 1) (Nat.lt_succ_self i)
        simp only [List.length_cons]
        omega
      · rw [if_neg hx]
        have h2 := ih best (i + 1) (by omega)
        simp only [List.length_cons]
        omega

/-- The argmax of a nonempty row is a valid index into the row. -/
theorem tfArgmax_lt (l : List ℚ) (h : l ≠ []) : tfArgmax l < l.length := by
  match l with
  | [] => exact absurd rfl h
  | x :: rest =>
      simp only [tfArgmax, List.length_cons]
      have h2 := argmaxGo_lt rest (0, x) 1 (by omega)
      omega

/-- The running maximum plus one computed by the bincount model is bounded by
any strict bound on the elements. -/
theorem foldr_maxbound (xs : List Nat) (n : Nat) (h : ∀ x ∈ xs, x < n) :
    xs.foldr (fun x a => max (x + 1) a) 0 ≤ n := by
  induction xs with
  | nil => simp
  | cons x rest ih =>
      simp only [List.foldr_cons]
      have hx := h x (by simp)
      have hr := ih (fun y hy => h y (by simp [hy]))
      exact max_le hx hr

/-- An index occurs in a range exactly once when below the bound, else never. -/
theorem count_range_eq (n x : Nat) :
    (List.range n).count x = if x < n then 1 else 0 := by
  by_cases h : x < n
  · rw [if_pos h]
    exact List.count_eq_one_of_mem (List.nodup_range _) (List.mem_range.mpr h)
  · rw [if_neg h]
    exact List.count_eq_zero_of_not_mem (fun hm => h (List.mem_range.mp hm))

/-- Prepending an element raises the summed occurrence counts over any index
list by the number of occurrences of that element in the index list. -/
theorem map_count_cons (L : List Nat) (x : Nat) (xs : List Nat) :
    (L.map (fun c => (x :: xs).count c)).sum =
      (L.map (fun c => xs.count c)).sum + L.count x := by
  induction L with
  | nil => simp
  | cons c L ih =>
      simp only [List.map_cons, List.sum_cons]
      rw [ih, List.count_cons, List.count_cons]
      by_cases h : x = c
      · subst h
        simp only [beq_self_eq_true, if_true]
        omega
      · have h1 : (c == x) = false := beq_eq_false_iff_ne.mpr (Ne.symm h)
        have h2 : (x == c) = false := beq_eq_false_iff_ne.mpr h
        simp only [h1, h2, Bool.false_eq_true, if_false]
        omega

/-- The occurrence counts over a covering index range sum to the list length. -/
theorem sum_range_count (xs : List Nat) (n : Nat) (h : ∀ x ∈ xs, x < n) :
    ((List.range n).map (fun c => xs.count c)).sum = xs.length := by
  induction xs with
  | nil => simp
  | cons x rest ih =>
      rw [map_count_cons, ih (fun y hy => h y (by simp [hy])), count_range_eq,
        if_pos (h x (by simp))]
      simp

/-- Reading a mapped range at an in-range position gives the function value. -/
theorem getD_map_range {α : Type} (f : Nat → α) (n c : Nat) (hc : c < n) (d : α) :
    ((List.range n).map f).getD c d = f c := by
  simp [List.getD, List.getElem?_map, List.getElem?_range hc]

/-- Percentages distribute over the sum of a list of counts. -/
theorem sum_map_div (l : List Nat) (T : ℚ) :
    (l.map (fun k : Nat => (k : ℚ) / T * 100)).sum = ((l.sum : ℚ)) / T * 100 := by
  induction l with
  | nil => simp
  | cons x rest ih =>
      simp only [List.map_cons, List.sum_cons, ih]
      rw [Nat.cast_add]
      ring

/-- C7: for a file whose classifier output is one row of NUM_CLASSES logits
per example, the reported per-class counts cover all NUM_CLASSES classes,
each count equals the number of examples whose argmax is that class, each
percentage equals the count divided by the total number of predictions times
100, and the percentages sum to 100. -/
theorem C7_predict_reporting (logits : List (List ℚ))
    (hrow : ∀ row ∈ logits, row.length = NUM_CLASSES) (hne : logits ≠ []) :
    (predict_nn_counts logits).1.length = NUM_CLASSES ∧
    (∀ c, c < NUM_CLASSES →
      (predict_nn_counts logits).1.getD c 0 = (logits.map tfArgmax).count c) ∧
    (∀ c, c < NUM_CLASSES →
      (predict_nn_counts logits).2.getD c 0 =
        (((logits.map tfArgmax).count c : ℚ) / (logits.length : ℚ)) * 100) ∧
    (predict_nn_counts logits).2.sum = 100 := by
  have hlt : ∀ p ∈ logits.map tfArgmax, p < NUM_CLASSES := by
    intro p hp
    obtain ⟨row, hrm, hpe⟩ := List.mem_map.mp hp
    have hrl := hrow row hrm
    have hrne : row ≠ [] := by
      intro h0; rw [h0] at hrl; simp [NUM_CLASSES] at hrl
    have hb := tfArgmax_lt row hrne
    rw [hrl] at hb
    omega
  have hfold : (logits.map tfArgmax).foldr (fun x a => max (x + 1) a) 0 ≤ NUM_CLASSES :=
    foldr_maxbound _ _ hlt
  have hlen5 : max NUM_CLASSES ((logits.map tfArgmax).foldr (fun x a => max (x + 1) a) 0) =
      NUM_CLASSES := Nat.max_eq_left hfold
  have hcounts : (predict_nn_counts logits).1 =
      (List.range NUM_CLASSES).map (fun c => (logits.map tfArgmax).count c) := by
    simp [predict_nn_counts, bincount, hlen5]
  have hdist : (predict_nn_counts logits).2 =
      ((List.range NUM_CLASSES).map (fun c => (logits.map tfArgmax).count c)).map
        (fun k : Nat => (k : ℚ) / (logits.length : ℚ) * 100) := by
    simp [predict_nn_counts, bincount, hlen5]
  have hlen0 : (logits.length : ℚ) ≠ 0 :=
    Nat.cast_ne_zero.mpr (fun h0 => hne (List.length_eq_zero.mp h0))
  refine ⟨?_, ?_, ?_, ?_⟩
  · rw [hcounts]; simp
  · intro c hc
    rw [hcounts]
    exact getD_map_range _ _ _ hc _
  · intro c hc
    rw [hdist, List.map_map]
    have h3 := getD_map_range ((fun k : Nat => (k : ℚ) / (logits.length : ℚ) * 100) ∘
      (fun c => (logits.map tfArgmax).count c)) NUM_CLASSES c hc 0
    simpa using h3
  · rw [hdist, sum_map_div, sum_range_count _ _ hlt]
    simp only [List.length_map]
    rw [div_self hlen0, one_mul]

/-- Witness for C7 at two concrete logit rows: the reported percentages sum to
100. -/
theorem C7_predict_reporting_witness :
    (predict_nn_counts [[1, 5, 0, 0, 0], [0, 0, 0, 2, 9]]).2.sum = 100 :=
  (C7_predict_reporting [[1, 5, 0, 0, 0], [0, 0, 0, 2, 9]] (by decide) (by decide)).2.2.2

/-- Looking up a key after a dict assignment returns the assigned value for
that key and is unchanged for every other key. -/
theorem dictLookup_insert {α : Type} (m : List (String × α)) (k : String) (v : α)
    (r : String) :
    dictLookup (dictInsert m k v) r = if k == r then some v else dictLookup m r := by
  induction m with
  | nil =>
      by_cases h : k = r
      · subst h; simp [dictInsert, dictLookup]
      · simp [dictInsert, dictLookup, h]
  | cons e rest ih =>
      by_cases he : e.1 = k
      · simp only [dictInsert, beq_iff_eq, he, if_true]
        by_cases hkr : k = r
        · subst hkr; simp [dictLookup]
        · have hkr2 : (k == r) = false := beq_eq_false_iff_ne.mpr hkr
          have her2 : (e.1 == r) = false := by rw [he]; exact hkr2
          simp [dictLookup, List.find?, hkr2, hkr, her2]
      · simp only [dictInsert, beq_iff_eq, he, if_false]
        by_cases her : e.1 = r
        · have hkr : ¬k = r := fun h2 => he (her.trans h2.symm)
          simp [dictLookup, List.find?, her, hkr]
        · have her2 : (e.1 == r) = false := beq_eq_false_iff_ne.mpr her
          simp only [dictLookup, List.find?, her2]
          simpa [dictLookup] using ih

/-- Searching a concatenation searches the left part first. -/
theorem find?_append_eq {α : Type} (l1 l2 : List α) (p : α → Bool) :
    (l1 ++ l2).find? p = match l1.find? p with
      | some a => some a
      | none => l2.find? p := by
  induction l1 with
  | nil => simp
  | cons x l1 ih =>
      by_cases h : p x
      · simp [List.find?_cons_of_pos, h]
      · simp [List.find?_cons_of_neg, h, ih]

/-- Folding dict assignments over a list of entries gives, for each key, the
value of its last entry, falling back to the initial dict. -/
theorem dictLookup_foldl {α : Type} :
    ∀ (entries : List (String × α)) (m : List (String × α)) (rid : String),
    dictLookup (entries.foldl (fun acc e => dictInsert acc e.1 e.2) m) rid =
      match entries.reverse.find? (fun e => e.1 == rid) with
      | some a => some a.2
      | none => dictLookup m rid := by
  intro entries
  induction entries with
  | nil => intro m rid; simp
  | cons e es ih =>
      intro m rid
      simp only [List.foldl_cons, List.reverse_cons]
      rw [ih, find?_append_eq]
      cases hfind : es.reverse.find? (fun x => x.1 == rid) with
      | some a => simp [hfind]
      | none =>
          simp only [hfind]
          rw [dictLookup_insert]
          by_cases h : e.1 = rid
          · simp [List.find?, h]
          · have h2 : (e.1 == rid) = false := beq_eq_false_iff_ne.mpr h
            simp [List.find?, h2]

/-- A successful pyIndex read means the index is within the list. -/
theorem pyIndex_ok {α : Type} (l : List α) (i : Nat) (a : α)
    (h : pyIndex l i = .ok a) : l.get? i = some a := by
  unfold pyIndex at h
  cases hg : l.get? i with
  | some b => rw [hg] at h; simp at h; rw [h]
  | none => rw [hg] at h; simp at h

/-- A successfully parsed alignment line has at least four fields and integer
chromosome, start and end fields. -/
theorem parseAlignLine_ok_fields (line : String) (rid : String) (c s e : Int)
    (h : parseAlignLine line = .ok (rid, c, s, e)) :
    4 ≤ (pySplit line).length ∧
    pyParseInt ((pySplit line).getD 1 "") = some c ∧
    pyParseInt ((pySplit line).getD 2 "") = some s ∧
    pyParseInt ((pySplit line).getD 3 "") = some e := by
  simp only [parseAlignLine] at h
  cases h0 : pyIndex (pySplit line) 0 with
  | error e0 => simp [h0] at h
  | ok rid0 =>
  simp only [h0] at h
  cases h1 : pyIndex (pySplit line) 1 with
  | error e1 => simp [h1] at h
  | ok f1 =>
  simp only [h1] at h
  cases h1p : pyToInt f1 with
  | error e1p => simp [h1p] at h
  | ok c1 =>
  simp only [h1p] at h
  cases h2 : pyIndex (pySplit line) 2 with
  | error e2 => simp [h2] at h
  | ok f2 =>
  simp only [h2] at h
  cases h2p : pyToInt f2 with
  | error e2p => simp [h2p] at h
  | ok s2 =>
  simp only [h2p] at h
  cases h3 : pyIndex (pySplit line) 3 with
  | error e3 => simp [h3] at h
  | ok f3 =>
  simp only [h3] at h
  cases h3p : pyToInt f3 with
  | error e3p => simp [h3p] at h
  | ok e3v =>
  simp only [h3p] at h
  simp only [Except.ok.injEq, Prod.mk.injEq] at h
  obtain ⟨hr, hc, hs, he⟩ := h
  have hg1 := pyIndex_ok _ _ _ h1
  have hg2 := pyIndex_ok _ _ _ h2
  have hg3 := pyIndex_ok _ _ _ h3
  have hlen : 3 < (pySplit line).length := by
    by_contra hlt
    rw [List.get?_eq_none.mpr (by omega)] at hg3
    simp at hg3
  refine ⟨by omega, ?_, ?_, ?_⟩
  · rw [List.getD, hg1, Option.getD_some]
    simp only [pyToInt] at h1p
    cases hp : pyParseInt f1 with
    | some n => rw [hp] at h1p; simp at h1p; rw [h1p, hc]
    | none => rw [hp] at h1p; simp at h1p
  · rw [List.getD, hg2, Option.getD_some]
    simp only [pyToInt] at h2p
    cases hp : pyParseInt f2 with
    | some n => rw [hp] at h2p; simp at h2p; rw [h2p, hs]
    | none => rw [hp] at h2p; simp at h2p
  · rw [List.getD, hg3, Option.getD_some]
    simp only [pyToInt] at h3p
    cases hp : pyParseInt f3 with
    | some n => rw [hp] at h3p; simp at h3p; rw [h3p, he]
    | none => rw [hp] at h3p; simp at h3p

/-- A malformed alignment line makes parseAlignLine fail. -/
theorem badLine_error (line : String) (hb : badLine line = true) :
    ∃ msg, parseAlignLine line = .error msg := by
  cases hp : parseAlignLine line with
  | error msg => exact ⟨msg, rfl⟩
  | ok q =>
      exfalso
      obtain ⟨rid, c, s, e⟩ := q
      have hf := parseAlignLine_ok_fields line rid c s e hp
      have hfalse : badLine line = false := by
        have hf1 : pyParseInt ((pySplit line)[1]?.getD "") = some c := by simpa using hf.2.1
        have hf2 : pyParseInt ((pySplit line)[2]?.getD "") = some s := by simpa using hf.2.2.1
        have hf3 : pyParseInt ((pySplit line)[3]?.getD "") = some e := by simpa using hf.2.2.2
        simp [badLine, Nat.not_lt.mpr hf.1, hf1, hf2, hf3]
      simp [hfalse] at hb

/-- The alignment line loop fails whenever some line is malformed, from any
starting dict. -/
theorem alignLoop_error : ∀ (lines : List String),
    (∃ line ∈ lines, badLine line = true) →
    ∀ m, ∃ msg, alignLoop m lines = .error msg := by
  intro lines
  induction lines with
  | nil => intro h m; rcases h with ⟨l, hl, _⟩; simp at hl
  | cons l ls ih =>
      intro h m
      rcases h with ⟨x, hx, hbx⟩
      rcases List.mem_cons.mp hx with h1 | hxs
      · subst h1
        obtain ⟨msg, hmsg⟩ := badLine_error x hbx
        exact ⟨msg, by simp [alignLoop, hmsg]⟩
      · cases hp : parseAlignLine l with
        | error msg => exact ⟨msg, by simp [alignLoop, hp]⟩
        | ok e =>
            obtain ⟨msg, hmsg⟩ := ih ⟨x, hxs, hbx⟩ (dictInsert m e.1 e.2)
            exact ⟨msg, by simp [alignLoop, hp, hmsg]⟩

/-- When every line parses, the alignment line loop folds the dict assignments
over the parsed entries. -/
theorem alignLoop_ok : ∀ (lines : List String)
    (entries : List (String × Int × Int × Int)) (m : AlignInfo),
    parseLines lines = .ok entries →
    alignLoop m lines = .ok (entries.foldl (fun acc e => dictInsert acc e.1 e.2) m) := by
  intro lines
  induction lines with
  | nil =>
      intro entries m h
      simp only [parseLines, Except.ok.injEq] at h
      subst h
      simp [alignLoop]
  | cons l ls ih =>
      intro entries m h
      simp only [parseLines] at h
      cases hp : parseAlignLine l with
      | error e => rw [hp] at h; simp at h
      | ok ent =>
          rw [hp] at h
          cases hr : parseLines ls with
          | error e => rw [hr] at h; simp at h
          | ok rest =>
              rw [hr] at h
              simp only [Except.ok.injEq] at h
              subst h
              have h2 := ih rest (dictInsert m ent.1 ent.2) hr
              simp [alignLoop, hp, h2]

/-- C6: alignment index construction fails whenever some line has fewer than
four comma-separated fields or a non-integer chromosome, start or end field;
on a well-formed file it returns a dict mapping each read identifier to the
triple of its last occurrence. -/
theorem C6_alignment_index (lines : List String) :
    ((∃ line ∈ lines, badLine line = true) → ∃ msg, load_alignment_info lines = .error msg) ∧
    (∀ entries, parseLines lines = .ok entries →
      load_alignment_info lines =
        .ok (entries.foldl (fun acc e => dictInsert acc e.1 e.2) []) ∧
      ∀ rid, dictLookup (entries.foldl (fun acc e => dictInsert acc e.1 e.2) []) rid =
        (entries.reverse.find? (fun e => e.1 == rid)).map (fun e => e.2)) := by
  constructor
  · intro hbad
    exact alignLoop_error lines hbad []
  · intro entries h
    refine ⟨alignLoop_ok lines entries [] h, ?_⟩
    intro rid
    rw [dictLookup_foldl]
    cases hf : entries.reverse.find? (fun e => e.1 == rid) <;> simp [hf, dictLookup]

/-- Witness for C6 on a concrete three-line file with a duplicate read
identifier: the lookup returns the triple of the last occurrence. -/
theorem C6_alignment_index_witness :
    dictLookup ((getOk (parseLines ["r1,1,2,3", "r2,4,5,6", "r1,7,8,9"])).foldl
      (fun acc e => dictInsert acc e.1 e.2) []) "r1" =
    (((getOk (parseLines ["r1,1,2,3", "r2,4,5,6", "r1,7,8,9"])).reverse.find?
      (fun e => e.1 == "r1")).map (fun e => e.2)) :=
  ((C6_alignment_index ["r1,1,2,3", "r2,4,5,6", "r1,7,8,9"]).2
    (getOk (parseLines ["r1,1,2,3", "r2,4,5,6", "r1,7,8,9"])) (by rfl)).2 "r1"

/-- A successfully built auxiliary vector has the one-hot width plus the two
raw coordinates. -/
theorem auxVector_ok_length (numC : Nat) (c s e : Int) (v : List ℚ)
    (h : auxVector numC c s e = .ok v) : v.length = numC + 2 := by
  simp only [auxVector, oneHotChrom] at h
  by_cases hc : 0 ≤ c ∧ c < (numC : Int)
  · rw [if_pos hc] at h
    simp only [Except.ok.injEq] at h
    subst h
    simp
  · rw [if_neg hc] at h
    simp at h

/-- Whether the record loop attaches an auxiliary vector for a record: the
dict is supplied and truthy and contains the record identifier. -/
def auxHit (ai : Option AlignInfo) (rec : FastqRecord) : Bool :=
  pyTruthy ai && (dictLookup (ai.getD []) rec.id).isSome

/-- A successful auxiliary block appends exactly one vector of full width on a
hit and leaves the collected vectors unchanged otherwise. -/
theorem auxUpdate_ok (ai : Option AlignInfo) (numC : Nat) (st : LoadState)
    (rec : FastqRecord) (A : List (List ℚ))
    (h : auxUpdate ai numC st rec = .ok A) :
    (auxHit ai rec = true → ∃ v, A = st.aux_inputs ++ [v] ∧ v.length = numC + 2) ∧
    (auxHit ai rec = false → A = st.aux_inputs) := by
  by_cases hT : pyTruthy ai = true
  · cases hL : dictLookup (ai.getD []) rec.id with
    | none =>
        simp only [auxUpdate, hT, if_true, hL, Except.ok.injEq] at h
        constructor
        · intro hhit
          rw [auxHit, hT, hL] at hhit
          simp at hhit
        · intro _
          exact h.symm
    | some cse =>
        simp only [auxUpdate, hT, if_true, hL] at h
        cases hA : auxVector numC cse.1 cse.2.1 cse.2.2 with
        | error e2 => simp [hA] at h
        | ok v =>
            simp only [hA, Except.ok.injEq] at h
            constructor
            · intro _
              exact ⟨v, h.symm, auxVector_ok_length numC cse.1 cse.2.1 cse.2.2 v hA⟩
            · intro hmiss
              rw [auxHit, hT, hL] at hmiss
              simp at hmiss
  · have hT2 : pyTruthy ai = false := by
      cases hpt : pyTruthy ai
      · rfl
      · exact absurd hpt hT
    simp only [auxUpdate, hT2, Bool.false_eq_true, if_false, Except.ok.injEq] at h
    constructor
    · intro hhit
      rw [auxHit, hT2] at hhit
      simp at hhit
    · intro _
      exact h.symm

/-- Characterisation of the record loop of load_sequences: starting from any
state, a successful run counts every record, counts exactly the short records
as excluded, appends the truncated encodings and the file label for exactly
the retained records, and appends one full-width auxiliary vector for exactly
the retained records whose identifier hits the alignment dict. -/
theorem loadLoop_spec (ai : Option AlignInfo) (numC : Nat) (label : Int) :
    ∀ (records : List FastqRecord) (st final : LoadState),
    loadLoop ai numC label st records = .ok final →
    final.total = st.total + records.length ∧
    final.excluded = st.excluded + (records.filter isShort).length ∧
    final.seqs = st.seqs ++ (records.filter (fun r => !isShort r)).map
      (fun r => (normalize_sequence r.seq).take INPUT_SIZE) ∧
    final.labels = st.labels ++
      List.replicate ((records.filter (fun r => !isShort r)).length) label ∧
    ∃ newAux, final.aux_inputs = st.aux_inputs ++ newAux ∧
      newAux.length = (records.filter (isMatched ai)).length ∧
      ∀ v ∈ newAux, v.length = numC + 2 := by
  intro records
  induction records with
  | nil =>
      intro st final h
      simp only [loadLoop, Except.ok.injEq] at h
      subst h
      exact ⟨by simp, by simp, by simp, by simp, [], by simp, by simp, by simp⟩
  | cons r rs ih =>
      intro st final h
      simp only [loadLoop] at h
      cases hstep : loadStep ai numC label st r with
      | error e => rw [hstep] at h; simp at h
      | ok st1 =>
          rw [hstep] at h
          obtain ⟨ht, he, hs, hl, newAux, hna, hlen, hvlen⟩ := ih st1 final h
          simp only [loadStep] at hstep
          by_cases hshort : (normalize_sequence r.seq).length < INPUT_SIZE
          · rw [if_pos hshort] at hstep
            simp only [Except.ok.injEq] at hstep
            subst hstep
            have hshortB : isShort r = true := by simp [isShort, hshort]
            have hmB : isMatched ai r = false := by simp [isMatched, hshortB]
            refine ⟨?_, ?_, ?_, ?_, newAux, ?_, ?_, hvlen⟩
            · rw [ht]; simp; omega
            · rw [he]; simp [List.filter_cons, hshortB]; omega
            · rw [hs]; simp [List.filter_cons, hshortB]
            · rw [hl]; simp [List.filter_cons, hshortB]
            · rw [hna]
            · rw [hlen]; simp [List.filter_cons, hmB]
          · rw [if_neg hshort] at hstep
            have hlong : isShort r = false := by simp [isShort, hshort]
            cases hA : auxUpdate ai numC st r with
            | error e2 => rw [hA] at hstep; simp at hstep
            | ok A =>
                rw [hA] at hstep
                simp only [Except.ok.injEq] at hstep
                subst hstep
                have hax := auxUpdate_ok ai numC st r A hA
                have hmEq : isMatched ai r = auxHit ai r := by
                  simp [isMatched, auxHit, hlong]
                cases hhit : auxHit ai r with
                | false =>
                    have hAeq : A = st.aux_inputs := hax.2 hhit
                    subst hAeq
                    refine ⟨?_, ?_, ?_, ?_, newAux, ?_, ?_, hvlen⟩
                    · rw [ht]; simp; omega
                    · rw [he]; simp [List.filter_cons, hlong]
                    · rw [hs]; simp [List.filter_cons, hlong]
                    · rw [hl]; simp [List.filter_cons, hlong, List.replicate_succ]
                    · rw [hna]
                    · rw [hlen]; simp [List.filter_cons, hmEq, hhit]
                | true =>
                    obtain ⟨v, hAeq, hvl⟩ := hax.1 hhit
                    subst hAeq
                    refine ⟨?_, ?_, ?_, ?_, v :: newAux, ?_, ?_, ?_⟩
                    · rw [ht]; simp; omega
                    · rw [he]; simp [List.filter_cons, hlong]
                    · rw [hs]; simp [List.filter_cons, hlong]
                    · rw [hl]; simp [List.filter_cons, hlong, List.replicate_succ]
                    · rw [hna]; simp
                    · rw [List.length_cons, hlen]
                      simp [List.filter_cons, hmEq, hhit]
                    · intro u hu
                      rcases List.mem_cons.mp hu with h1 | h2
                      · rw [h1]; exact hvl
                      · exact hvlen u h2

/-- Unpacking a successful load_sequences call into its label, its final loop
state, and the packaging of the result fields. -/
theorem load_sequences_ok (fp : String) (records : List FastqRecord)
    (ai : Option AlignInfo) (numC : Nat) (r : LoadResult)
    (h : load_sequences fp records ai numC = .ok r) :
    ∃ label final,
      get_label_from_filename fp = .ok label ∧
      loadLoop ai numC label ⟨[], [], [], 0, 0⟩ records = .ok final ∧
      r.seqs = final.seqs ∧ r.labels = final.labels ∧
      r.excluded = final.excluded ∧ r.total = final.total ∧
      r.aux_inputs = (if final.aux_inputs.isEmpty then none else some final.aux_inputs) := by
  simp only [load_sequences] at h
  cases hlab : get_label_from_filename fp with
  | error e => simp [hlab] at h
  | ok label =>
  simp only [hlab] at h
  cases hloop : loadLoop ai numC label ⟨[], [], [], 0, 0⟩ records with
  | error e => simp [hloop] at h
  | ok final =>
  simp only [hloop] at h
  refine ⟨label, final, rfl, hloop, ?_⟩
  by_cases hemp : final.aux_inputs.isEmpty
  · rw [if_pos hemp] at h
    simp only [Except.ok.injEq] at h
    subst h
    exact ⟨rfl, rfl, rfl, rfl, by rw [if_pos hemp]⟩
  · rw [if_neg hemp] at h
    simp only [Except.ok.injEq] at h
    subst h
    exact ⟨rfl, rfl, rfl, rfl, by rw [if_neg hemp]⟩

/-- A record is short exactly when its raw sequence has fewer than INPUT_SIZE
characters, the encoder being length-preserving. -/
theorem isShort_eq (rec : FastqRecord) :
    isShort rec = decide (rec.seq.data.length < INPUT_SIZE) := by
  simp [isShort, normalize_sequence]

/-- A filter and its complement partition the length of a list. -/
theorem filter_not_length {α : Type} (p : α → Bool) (l : List α) :
    (l.filter p).length + (l.filter (fun a => !p a)).length = l.length := by
  induction l with
  | nil => rfl
  | cons x xs ih =>
      by_cases h : p x <;> simp [List.filter_cons, h, ← ih] <;> omega

/-- C3: load_sequences excludes exactly the records whose sequence is shorter
than INPUT_SIZE, counting them, and retains the others truncated to their
first INPUT_SIZE symbols; the total equals excluded plus retained and every
retained tensor has exactly INPUT_SIZE entries. -/
theorem C3_loader_exclusion (fp : String) (records : List FastqRecord)
    (ai : Option AlignInfo) (numC : Nat) (r : LoadResult)
    (h : load_sequences fp records ai numC = .ok r) :
    r.total = records.length ∧
    r.excluded = (records.filter (fun rec => rec.seq.data.length < INPUT_SIZE)).length ∧
    r.seqs = (records.filter (fun rec => ¬(rec.seq.data.length < INPUT_SIZE))).map
      (fun rec => (normalize_sequence rec.seq).take INPUT_SIZE) ∧
    r.total = r.excluded + r.seqs.length ∧
    ∀ sq ∈ r.seqs, sq.length = INPUT_SIZE := by
  obtain ⟨label, final, hlab, hloop, hseqs, hlabels, hexcl, htot, haux⟩ :=
    load_sequences_ok fp records ai numC r h
  obtain ⟨ht2, he2, hs2, hl2, -⟩ := loadLoop_spec ai numC label records _ final hloop
  have hfeq : records.filter isShort =
      records.filter (fun rec => decide (rec.seq.data.length < INPUT_SIZE)) :=
    List.filter_congr (fun x _ => isShort_eq x)
  have hfeq2 : records.filter (fun rec => !isShort rec) =
      records.filter (fun rec => decide (¬(rec.seq.data.length < INPUT_SIZE))) :=
    List.filter_congr (fun x _ => by simp only [isShort_eq, decide_not])
  have htotal : r.total = records.length := by
    rw [htot, ht2]
    simp
  have hexcl2 : r.excluded =
      (records.filter (fun rec => rec.seq.data.length < INPUT_SIZE)).length := by
    rw [hexcl, he2, hfeq]
    simp
  have hseqs2 : r.seqs =
      (records.filter (fun rec => ¬(rec.seq.data.length < INPUT_SIZE))).map
      (fun rec => (normalize_sequence rec.seq).take INPUT_SIZE) := by
    rw [hseqs, hs2, hfeq2]
    simp
  refine ⟨htotal, hexcl2, hseqs2, ?_, ?_⟩
  · rw [htotal, hexcl2, hseqs2, List.length_map]
    have hpart := filter_not_length isShort records
    rw [hfeq, hfeq2] at hpart
    simpa using hpart.symm
  · intro sq hsq
    rw [hseqs2] at hsq
    obtain ⟨rec, hmem, hval⟩ := List.mem_map.mp hsq
    have hge : ¬(rec.seq.data.length < INPUT_SIZE) := by
      have h2 := List.of_mem_filter hmem
      simpa using h2
    have hlen2 : (normalize_sequence rec.seq).length = rec.seq.data.length := by
      simp [normalize_sequence]
    rw [← hval, List.length_take, hlen2]
    exact Nat.min_eq_left (by omega)

/-- Concrete records for the C3 witness: one retained and one short record. -/
def c3records : List FastqRecord :=
  [⟨"a", String.mk (List.replicate 150 'A')⟩, ⟨"b", "ACGT"⟩]

/-- Witness for C3 on one long and one short record: the total equals excluded
plus retained. -/
theorem C3_loader_exclusion_witness :
    (getOk (load_sequences "x__1.fastq.gz" c3records none NUM_CHROMOSOMES)).total =
      (getOk (load_sequences "x__1.fastq.gz" c3records none NUM_CHROMOSOMES)).excluded +
      (getOk (load_sequences "x__1.fastq.gz" c3records none NUM_CHROMOSOMES)).seqs.length :=
  (C3_loader_exclusion "x__1.fastq.gz" c3records none NUM_CHROMOSOMES _ (by rfl)).2.2.2.1

/-- C5: label extraction strips two extensions, finds the last two-underscore
separator and parses the integer suffix after it; with no separator it fails
with the format error, and that failure aborts the load of the file. -/
theorem C5_label_extraction (fp : String) :
    (rfindUU (strippedBase fp) = none →
       get_label_from_filename fp = .error "Invalid filename format for extracting label" ∧
       ∀ (records : List FastqRecord) (ai : Option AlignInfo) (numC : Nat),
         ∃ msg, load_sequences fp records ai numC = .error msg) ∧
    (∀ i, rfindUU (strippedBase fp) = some i →
       get_label_from_filename fp = pyToInt (String.mk ((strippedBase fp).drop (i + 2)))) ∧
    strippedBase "sample__3.fastq.gz" = "sample__3".data ∧
    get_label_from_filename "sample__3.fastq.gz" = .ok 3 := by
  refine ⟨?_, ?_, by rfl, by rfl⟩
  · intro hnone
    constructor
    · simp [get_label_from_filename, hnone]
    · intro records ai numC
      refine ⟨"Invalid filename format for extracting label", ?_⟩
      simp [load_sequences, get_label_from_filename, hnone]
  · intro i hi
    simp [get_label_from_filename, hi]

/-- Witness for C5 at a file name with no separator: the format error. -/
theorem C5_label_extraction_witness :
    get_label_from_filename "nolabel.fastq.gz" =
      .error "Invalid filename format for extracting label" :=
  ((C5_label_extraction "nolabel.fastq.gz").1 (by rfl)).1

/-- Concrete record for the C4 counterexample. -/
def c4xrecords : List FastqRecord := [⟨"q", String.mk (List.replicate 150 'G')⟩]

/-- Counterexample to C4 as stated: a file named with suffix 7 loads
successfully and produces the label 7, which is not below NUM_CLASSES. -/
theorem C4_label_range_counterexample :
    (getOk (load_sequences "x__7.fastq.gz" c4xrecords none NUM_CHROMOSOMES)).labels = [7] ∧
    ¬((7 : Int) < (NUM_CLASSES : Int)) := by
  constructor
  · rfl
  · decide

/-- C4 amended: every label load_sequences produces equals the integer parsed
from the file name suffix, with no range check; the labels lie in the class
range exactly when that integer does. -/
theorem C4_label_range_amended (fp : String) (records : List FastqRecord)
    (ai : Option AlignInfo) (numC : Nat) (r : LoadResult)
    (h : load_sequences fp records ai numC = .ok r) :
    (∀ l ∈ r.labels, get_label_from_filename fp = .ok l) ∧
    (∀ n, get_label_from_filename fp = .ok n → 0 ≤ n → n < (NUM_CLASSES : Int) →
      ∀ l ∈ r.labels, 0 ≤ l ∧ l < (NUM_CLASSES : Int)) := by
  obtain ⟨label, final, hlab, hloop, hseqs, hlabels, hexcl, htot, haux⟩ :=
    load_sequences_ok fp records ai numC r h
  obtain ⟨-, -, -, hl2, -⟩ := loadLoop_spec ai numC label records _ final hloop
  have hfirst : ∀ l ∈ r.labels, l = label := by
    intro l hl
    rw [hlabels, hl2] at hl
    simp only [List.nil_append] at hl
    exact List.eq_of_mem_replicate hl
  constructor
  · intro l hl
    rw [hfirst l hl]
    exact hlab
  · intro n hn h0 h5 l hl
    rw [hlab] at hn
    simp only [Except.ok.injEq] at hn
    rw [hfirst l hl, hn]
    exact ⟨h0, h5⟩

/-- Concrete record for the C4 witness. -/
def c4records : List FastqRecord := [⟨"w", String.mk (List.replicate 150 'T')⟩]

/-- Witness for the amended C4: the label 2 produced for a file with suffix 2
equals the value extracted from the file name. -/
theorem C4_label_range_amended_witness :
    get_label_from_filename "s__2.fastq.gz" = .ok 2 :=
  (C4_label_range_amended "s__2.fastq.gz" c4records none NUM_CHROMOSOMES
    (getOk (load_sequences "s__2.fastq.gz" c4records none NUM_CHROMOSOMES)) (by rfl)).1 2
    (by decide)

/-- The string-typed auxiliary block never extends the collected vectors: it
raises the TypeError on a substring hit and leaves them unchanged otherwise. -/
theorem auxUpdatePath_ok (alignment_data : Option String) (st : LoadState)
    (rec : FastqRecord) (A : List (List ℚ))
    (h : auxUpdatePath alignment_data st rec = .ok A) : A = st.aux_inputs := by
  simp only [auxUpdatePath] at h
  by_cases hT : pyTruthyStr alignment_data = true
  · rw [if_pos hT] at h
    by_cases hC : chrContains rec.id.data (alignment_data.getD "").data = true
    · rw [if_pos hC] at h
      simp at h
    · rw [if_neg hC] at h
      simp only [Except.ok.injEq] at h
      exact h.symm
  · rw [if_neg hT] at h
    simp only [Except.ok.injEq] at h
    exact h.symm

/-- A training-run record loop that completes leaves the collected auxiliary
vectors unchanged. -/
theorem loadLoopPath_aux (alignment_data : Option String) (seq_label : Int) :
    ∀ (records : List FastqRecord) (st final : LoadState),
    loadLoopPath alignment_data seq_label st records = .ok final →
    final.aux_inputs = st.aux_inputs := by
  intro records
  induction records with
  | nil =>
      intro st final h
      simp only [loadLoopPath, Except.ok.injEq] at h
      subst h
      rfl
  | cons r rs ih =>
      intro st final h
      simp only [loadLoopPath] at h
      cases hstep : loadStepPath alignment_data seq_label st r with
      | error e => rw [hstep] at h; simp at h
      | ok st1 =>
          rw [hstep] at h
          have h2 := ih st1 final h
          simp only [loadStepPath] at hstep
          by_cases hshort : (normalize_sequence r.seq).length < INPUT_SIZE
          · rw [if_pos hshort] at hstep
            simp only [Except.ok.injEq] at hstep
            subst hstep
            exact h2
          · rw [if_neg hshort] at hstep
            cases hA : auxUpdatePath alignment_data st r with
            | error e2 => rw [hA] at hstep; simp at hstep
            | ok A =>
                rw [hA] at hstep
                simp only [Except.ok.injEq] at hstep
                subst hstep
                rw [h2]
                exact auxUpdatePath_ok alignment_data st r A hA

/-- A load over the raw path string that completes collects no auxiliary
vectors at all. -/
theorem load_sequences_path_no_aux (fp : String) (records : List FastqRecord)
    (alignment_data : Option String) (r : LoadResult)
    (h : load_sequences_path fp records alignment_data = .ok r) :
    r.aux_inputs = none := by
  simp only [load_sequences_path] at h
  cases hlab : get_label_from_filename fp with
  | error e => simp [hlab] at h
  | ok label =>
  simp only [hlab] at h
  cases hloop : loadLoopPath alignment_data label ⟨[], [], [], 0, 0⟩ records with
  | error e => simp [hloop] at h
  | ok final =>
  simp only [hloop] at h
  have haux : final.aux_inputs = [] :=
    loadLoopPath_aux alignment_data label records _ final hloop
  simp only [haux, List.isEmpty_nil, if_true, Except.ok.injEq] at h
  subst h
  rfl

/-- Every per-file result of the train_nn loading loop has no auxiliary
component. -/
theorem loadAll_no_aux (alignment_data : Option String) :
    ∀ (files : List (String × List FastqRecord)) (results : List LoadResult),
    loadAll alignment_data files = .ok results →
    ∀ res ∈ results, res.aux_inputs = none := by
  intro files
  induction files with
  | nil =>
      intro results h res hres
      simp only [loadAll, Except.ok.injEq] at h
      subst h
      simp at hres
  | cons f fs ih =>
      intro results h res hres
      simp only [loadAll] at h
      cases h1 : load_sequences_path f.1 f.2 alignment_data with
      | error e => simp [h1] at h
      | ok r =>
          simp only [h1] at h
          cases h2 : loadAll alignment_data fs with
          | error e => simp [h2] at h
          | ok rs =>
              simp only [h2, Except.ok.injEq] at h
              subst h
              rcases List.mem_cons.mp hres with h3 | h3
              · subst h3
                exact load_sequences_path_no_aux f.1 f.2 alignment_data res h1
              · exact ih rs h2 res h3

/-- C1: the claim fails on the program. train_nn forwards the raw
alignment-data path string to load_sequences without building the Alignment
Index, so the loader substring-tests each read identifier against the path
string and raises a TypeError on a hit; consequently a training run whose
read identifier occurs inside the path string crashes, and every training
run that completes has no auxiliary data and no auxiliary input width. -/
theorem C1_train_run_no_index :
    (∀ (files : List (String × List FastqRecord)) (alignment_data : Option String)
       (t : TrainData),
       train_nn_load files alignment_data = .ok t →
       t.has_aux_inputs = false ∧ t.all_aux_inputs = none ∧ aux_input_size t = none) ∧
    train_nn_load [("s__0.fastq.gz", [⟨"a", String.mk (List.replicate 150 'A')⟩])]
      (some "data/aln.csv") = .error "TypeError: string indices must be integers" := by
  constructor
  · intro files alignment_data t h
    simp only [train_nn_load] at h
    cases h1 : loadAll alignment_data files with
    | error e => simp [h1] at h
    | ok results =>
        simp only [h1, Except.ok.injEq] at h
        subst h
        have hall := loadAll_no_aux alignment_data files results h1
        have hany : (results.any fun r => r.aux_inputs.isSome) = false := by
          cases hx : results.any (fun r => r.aux_inputs.isSome)
          · rfl
          · exfalso
            obtain ⟨res, hmem, hsome⟩ := List.any_eq_true.mp hx
            rw [hall res hmem] at hsome
            simp at hsome
        refine ⟨hany, ?_, ?_⟩
        · simp only [hany, Bool.false_eq_true, if_false]
        · simp [aux_input_size, hany]
  · rfl

/-- Concrete records for the C1 witness: a read whose identifier is not a
substring of the alignment-data path, so the training run completes. -/
def c1records : List FastqRecord := [⟨"zz", String.mk (List.replicate 150 'C')⟩]

/-- Witness for C1: a concrete training run that completes, with the raw path
string forwarded, ends with no auxiliary data. -/
theorem C1_train_run_no_index_witness :
    (getOk (train_nn_load [("s__0.fastq.gz", c1records)]
      (some "data/aln.csv"))).has_aux_inputs = false :=
  (C1_train_run_no_index.1 [("s__0.fastq.gz", c1records)] (some "data/aln.csv")
    (getOk (train_nn_load [("s__0.fastq.gz", c1records)] (some "data/aln.csv")))
    (by rfl)).1

end Scrubby

